import Mathlib

/-!
Verification of the motu_face_swap repository against its specification.

The React client (`clients/src`) is embedded directly from the source.
The server-side orchestration core (Flask `server/app.py` with its
FaceSwapProcessor, HotFolderMonitor and the single-flight gate) is not
among the provided source files, so those components are modelled from
the specification, as marked on each definition.
-/

namespace Motu

/-! ### Client API: `swapFace` (clients/src/API.jsx) -/

/-- Environment of one `swapFace` call: the outcomes of the network and
parsing steps the function performs.  `templateFetchOk` is whether the
`fetch(templateUrl)` response was ok (a thrown fetch is folded into
`false`, both paths reach the same `catch`); `swapRespOk` is whether the
`POST /api/swap` response was ok; `swapJsonOk` is whether `result.json()`
succeeded; `imageField` is the `image` field of the parsed JSON
(`some ""` models a present but empty, hence falsy, field). -/
structure SwapEnv where
  templateFetchOk : Bool
  swapRespOk : Bool
  swapJsonOk : Bool
  imageField : Option String
deriving DecidableEq, Repr

/-- The data-URL built by `swapFace` on success:
`data:image/jpeg;base64,${data.image}`. -/
def dataUrlOf (img : String) : String := "data:image/jpeg;base64," ++ img

/-- `swapFace` from clients/src/API.jsx.  The whole body is wrapped in
`try/catch` and every `catch` and every non-image branch returns `null`
(here `none`); it is a total function, so it never rejects. -/
def swapFace (env : SwapEnv) : Option String :=
  if env.templateFetchOk = false then none
  else if env.swapRespOk = false then none
  else if env.swapJsonOk = false then none
  else match env.imageField with
    | some img => if img = "" then none else some (dataUrlOf img)
    | none => none

/-! ### Client wizard step counter (clients/src/App.jsx) -/

/-- The `steps` array of App.jsx: the five wizard pages in order. -/
def steps : List String :=
  ["UserForm", "Gender", "Template", "Capture", "Result"]

/-- The `setStep` updater inside `nextStep` (App.jsx line 54):
`prevStep < steps.length ? prevStep + 1 : prevStep`. -/
def nextStep (st : Int) : Int :=
  if st < (steps.length : Int) then st + 1 else st

/-- The `setStep` updater inside `backStep` (App.jsx line 71):
`prevStep > 0 ? prevStep - 1 : prevStep`. -/
def backStep (st : Int) : Int :=
  if st > 0 then st - 1 else st

/-- A user navigation action: clicking Next or Back. -/
inductive NavAct
  | next
  | back
deriving DecidableEq, Repr

/-- Run a sequence of navigation actions from a given step. -/
def runNav (st : Int) : List NavAct → Int
  | [] => st
  | NavAct.next :: l => runNav (nextStep st) l
  | NavAct.back :: l => runNav (backStep st) l

/-! ### Client capture handler (clients/src/components/Capture.jsx) -/

/-- Observable effects performed by `handleSwapFace`, in program order. -/
inductive UIEffect
  | setLoading (b : Bool)
  | setPhoto (url : String)
  | storeSwapped (url : String)
  | logError
  | goTo
deriving DecidableEq, Repr

/-- How the awaited `swapFace(templateUrl, sourceFile)` call ended:
resolved with a value (possibly `null`, here `none`) or threw. -/
inductive SwapOutcome
  | resolved (r : Option String)
  | threw
deriving DecidableEq, Repr

/-- `handleSwapFace` from Capture.jsx as its effect trace:
`setIsLoading(true)`; then in `try`, if the awaited result is truthy,
`setCapturedPhoto` and `localStorage.setItem("swappedPhoto", ...)`;
`catch` logs; `finally` does `setIsLoading(false)` and `goTo()`. -/
def handleSwapFace (outcome : SwapOutcome) : List UIEffect :=
  UIEffect.setLoading true ::
  (match outcome with
    | SwapOutcome.resolved (some url) =>
        [UIEffect.setPhoto url, UIEffect.storeSwapped url]
    | SwapOutcome.resolved none => []
    | SwapOutcome.threw => [UIEffect.logError])
  ++ [UIEffect.setLoading false, UIEffect.goTo]

/-- Number of `goTo()` calls in an effect trace. -/
def goToCount (l : List UIEffect) : Nat :=
  (l.filter (fun e => decide (e = UIEffect.goTo))).length

/-- The value of the `swappedPhoto` localStorage entry after running an
effect trace, starting from a previous value. -/
def applyStorage (st : Option String) : List UIEffect → Option String
  | [] => st
  | UIEffect.storeSwapped u :: rest => applyStorage (some u) rest
  | UIEffect.setLoading _ :: rest => applyStorage st rest
  | UIEffect.setPhoto _ :: rest => applyStorage st rest
  | UIEffect.logError :: rest => applyStorage st rest
  | UIEffect.goTo :: rest => applyStorage st rest

/-! ### WorkflowTemplate (modelled from the spec, server module absent) -/

/-- A value held by a node input slot: a literal or an image reference. -/
inductive SlotVal
  | lit (s : String)
  | imageRef (r : String)
deriving DecidableEq, Repr

/-- A workflow node: a node type and its named input slots. -/
structure WNode where
  nodeType : String
  inputs : List (String × SlotVal)
deriving DecidableEq, Repr

/-- Modelled from the spec: the WorkflowTemplate of section 3/4.1 (the
server's `fswap.json` and its loader are not among the source files).
An ordered mapping from node-id to node descriptor, with the designated
source-image input node/slot, template-image input node/slot, and output
node. -/
structure WorkflowTemplate where
  nodes : List (String × WNode)
  sourceNodeId : String
  sourceSlot : String
  templateNodeId : String
  templateSlot : String
  outputNodeId : String
deriving DecidableEq, Repr

/-- Rewrite the named input slot of a node to an image reference; all
other slots are kept. -/
def patchSlot (n : WNode) (slot ref : String) : WNode :=
  { n with inputs := n.inputs.map (fun kv =>
      if kv.1 = slot then (kv.1, SlotVal.imageRef ref) else kv) }

/-- Modelled from the spec: `clone_and_patch` (section 4.1) returns a
copy of the template in which the designated source-image slot and the
designated template-image slot are rewritten to reference the supplied
images; being a pure function it leaves the original value untouched. -/
def clone_and_patch (t : WorkflowTemplate) (srcRef tmplRef : String) :
    WorkflowTemplate :=
  { t with nodes := t.nodes.map (fun kv =>
      if kv.1 = t.sourceNodeId then (kv.1, patchSlot kv.2 t.sourceSlot srcRef)
      else if kv.1 = t.templateNodeId then
        (kv.1, patchSlot kv.2 t.templateSlot tmplRef)
      else kv) }

/-- Look up a node by id (first match, as in a JSON object mapping). -/
def nodeOf (t : WorkflowTemplate) (i : String) : Option WNode :=
  (t.nodes.find? (fun kv => kv.1 == i)).map Prod.snd

/-- Look up an input slot of a node by name. -/
def slotOf (n : WNode) (k : String) : Option SlotVal :=
  (n.inputs.find? (fun kv => kv.1 == k)).map Prod.snd

/-! ### HotFolder debounce (modelled from the spec, server module absent) -/

/-- Modelled from the spec: the per-path debounce timer of the
HotFolderMonitor (section 4.4; the server module is not among the source
files).  Starting from the most recent event at time `t`, a further
event at `u ≤ t + D` restarts the timer from `u`; otherwise the timer
expires and ingestion fires at `t + D`.  Once a path has been ingested
it is not reprocessed (section 4.4: the file is handed to the sink or
quarantined, never rescanned), so later events are dropped. -/
def debounceFire (D : Nat) : Nat → List Nat → Nat
  | t, [] => t + D
  | t, u :: rest => if u ≤ t + D then debounceFire D u rest else t + D

/-- Modelled from the spec: the ingestion (JobOrchestrator.process call)
times produced for one path's ordered event times — exactly one firing
per path that saw at least one event. -/
def ingestionTimes (D : Nat) : List Nat → List Nat
  | [] => []
  | t :: rest => [debounceFire D t rest]

/-- The event times observed for one watched path, extracted from the
global time-ordered event stream. -/
def eventsFor (p : String) (evs : List (String × Nat)) : List Nat :=
  (evs.filter (fun e => e.1 == p)).map Prod.snd

/-- Ingestion times for one watched path of the global event stream. -/
def ingestionsFor (D : Nat) (p : String) (evs : List (String × Nat)) :
    List Nat :=
  ingestionTimes D (eventsFor p evs)

/-! ### Orchestrator result discipline (modelled from the spec) -/

/-- The error taxonomy of section 7. -/
inductive OrchError
  | configError
  | connectionError
  | submissionError
  | timeoutError
  | retrievalError
  | backendUnavailable
deriving DecidableEq, Repr

/-- A terminal protocol event: success or failure (section 4.2). -/
inductive TerminalKind
  | successEv
  | failureEv
deriving DecidableEq, Repr

/-- One backend interaction, as the orchestrator can observe it: whether
submission was accepted, which terminal event (if any) arrived within
the timeout budget, and the bytes the retrieval call would return
(`[]` models "no output / history lookup 404s"). -/
structure BackendBehavior where
  submitAccepted : Bool
  terminalEvent : Option TerminalKind
  artifact : List Nat
deriving DecidableEq, Repr

/-- Modelled from the spec: the submit + await_completion + fetch_output
sequence of one job (sections 4.2/4.3; the server module is not among
the source files).  A rejected graph is `SubmissionError`; no terminal
event within budget is `TimeoutError`; a failure event or an empty/404
artifact is `RetrievalError` (section 4.2: fetch_output fails when the
completion reported no output). -/
def runJob (b : BackendBehavior) : Except OrchError (List Nat) :=
  if b.submitAccepted = false then Except.error OrchError.submissionError
  else match b.terminalEvent with
    | none => Except.error OrchError.timeoutError
    | some TerminalKind.failureEv => Except.error OrchError.retrievalError
    | some TerminalKind.successEv =>
        if b.artifact = [] then Except.error OrchError.retrievalError
        else Except.ok b.artifact

/-- Modelled from the spec: `JobOrchestrator.process` (section 4.3).
If the gate is held and the wait queue is already at the configured
bound, the call fails immediately with `BackendUnavailable`; otherwise
the job runs against the backend. -/
def process (bound qlen : Nat) (gateHeld : Bool) (b : BackendBehavior) :
    Except OrchError (List Nat) :=
  if gateHeld = true ∧ bound ≤ qlen then
    Except.error OrchError.backendUnavailable
  else runJob b

/-! ### Single-flight gate transition system (modelled from the spec) -/

/-- Origin of a job (section 3): interactive UI or hot-folder ingester. -/
inductive Origin
  | interactive
  | hotFolder
deriving DecidableEq, Repr

/-- The JobState enum of section 3. -/
inductive JobState
  | queued
  | executing
  | completed
  | failed
  | timedOut
deriving DecidableEq, Repr

/-- A job owned by the orchestrator for its lifetime. -/
structure Job where
  jid : Nat
  origin : Origin
  jstate : JobState
deriving DecidableEq, Repr

/-- Backend-visible events of an orchestration run: a job's backend
submission and a job's terminal event (completion, failure, or the
timeout budget elapsing). -/
inductive Ev
  | submitted (jid : Nat)
  | terminal (jid : Nat)
deriving DecidableEq, Repr

/-- Modelled from the spec: the orchestration-core state of sections 4.3
and 5 (the server module carrying it is not among the source files).
`holder` is the job occupying the single-flight gate, `queue` the FIFO
wait queue behind it, `jobs` the admitted jobs with their states, and
`rejected` the callers that failed immediately with
`BackendUnavailable`. -/
structure OrchState where
  holder : Option Nat
  queue : List Nat
  jobs : List Job
  rejected : List Nat
deriving DecidableEq, Repr

/-- The state at process start: gate free, no queue, no jobs. -/
def initState : OrchState := ⟨none, [], [], []⟩

/-- The ids of a job list. -/
def idsOf (js : List Job) : List Nat := js.map Job.jid

/-- The state of the job with a given id in a job list (first match). -/
def jstateIn (js : List Job) (i : Nat) : Option JobState :=
  (js.find? (fun j => j.jid == i)).map Job.jstate

/-- The state of the job with a given id. -/
def jstateOf (s : OrchState) (i : Nat) : Option JobState :=
  jstateIn s.jobs i

/-- The origin of the job with a given id. -/
def originOf (s : OrchState) (i : Nat) : Option Origin :=
  (s.jobs.find? (fun j => j.jid == i)).map Job.origin

/-- Set the state of the job with the given id. -/
def setJob (js : List Job) (i : Nat) (st : JobState) : List Job :=
  js.map (fun j => if j.jid == i then { j with jstate := st } else j)

/-- Release the single-flight gate: hand it to the head of the FIFO
wait queue (or leave it free when nobody waits). -/
def releaseGate (s : OrchState) : OrchState :=
  { s with holder := s.queue.head?, queue := s.queue.tail }

/-- Modelled from the spec: the orchestration actions (sections 4.3/5).
`arrive` is a `process` call (of either origin) reaching the gate;
`submit` is the gate holder's backend submission; `finishOk` and
`finishErr` are the success and failure terminal events observed for the
holder; `expire` is the holder's end-to-end timeout elapsing with no
terminal event (`process` then fails with `TimeoutError`). -/
inductive Act
  | arrive (jid : Nat) (o : Origin)
  | submit (jid : Nat)
  | finishOk (jid : Nat)
  | finishErr (jid : Nat)
  | expire (jid : Nat)
deriving DecidableEq, Repr

/-- Modelled from the spec: one orchestration step, with the configured
wait-queue bound.  An arriving fresh call takes the free gate, or joins
the FIFO queue while it is below the bound, or is rejected immediately
(`BackendUnavailable`).  Submission requires holding the gate with a
still-queued job.  Every terminal outcome — success, failure, timeout —
marks the job and releases the gate before the call returns. -/
def stepA (bound : Nat) (s : OrchState) : Act → OrchState
  | Act.arrive i o =>
      if i ∈ idsOf s.jobs ∨ i ∈ s.rejected then s
      else if s.holder = none then
        { s with holder := some i,
                 jobs := s.jobs ++ [⟨i, o, JobState.queued⟩] }
      else if s.queue.length < bound then
        { s with queue := s.queue ++ [i],
                 jobs := s.jobs ++ [⟨i, o, JobState.queued⟩] }
      else
        { s with rejected := s.rejected ++ [i] }
  | Act.submit i =>
      if s.holder = some i ∧ jstateOf s i = some JobState.queued then
        { s with jobs := setJob s.jobs i JobState.executing }
      else s
  | Act.finishOk i =>
      if s.holder = some i ∧ jstateOf s i = some JobState.executing then
        releaseGate { s with jobs := setJob s.jobs i JobState.completed }
      else s
  | Act.finishErr i =>
      if s.holder = some i ∧ (jstateOf s i = some JobState.queued ∨
          jstateOf s i = some JobState.executing) then
        releaseGate { s with jobs := setJob s.jobs i JobState.failed }
      else s
  | Act.expire i =>
      if s.holder = some i ∧ (jstateOf s i = some JobState.queued ∨
          jstateOf s i = some JobState.executing) then
        releaseGate { s with jobs := setJob s.jobs i JobState.timedOut }
      else s

/-- The backend-visible events one step emits. -/
def emitA (s : OrchState) : Act → List Ev
  | Act.arrive _ _ => []
  | Act.submit i =>
      if s.holder = some i ∧ jstateOf s i = some JobState.queued then
        [Ev.submitted i]
      else []
  | Act.finishOk i =>
      if s.holder = some i ∧ jstateOf s i = some JobState.executing then
        [Ev.terminal i]
      else []
  | Act.finishErr i =>
      if s.holder = some i ∧ (jstateOf s i = some JobState.queued ∨
          jstateOf s i = some JobState.executing) then
        [Ev.terminal i]
      else []
  | Act.expire i =>
      if s.holder = some i ∧ (jstateOf s i = some JobState.queued ∨
          jstateOf s i = some JobState.executing) then
        [Ev.terminal i]
      else []

/-- Run a sequence of orchestration actions. -/
def runA (bound : Nat) (s : OrchState) : List Act → OrchState
  | [] => s
  | a :: l => runA bound (stepA bound s a) l

/-- The backend-visible event trace of a run. -/
def traceA (bound : Nat) (s : OrchState) : List Act → List Ev
  | [] => []
  | a :: l => emitA s a ++ traceA bound (stepA bound s a) l

/-- Number of jobs currently in `Executing` state. -/
def execCount (s : OrchState) : Nat :=
  (s.jobs.filter (fun j => decide (j.jstate = JobState.executing))).length

/-- One step of a scan across a trace tracking the job whose submission
is pending (submitted, no terminal event yet); `none` as a result means
the trace interleaves a second submission before the first terminal. -/
def scanStep (p : Option Nat) : Ev → Option (Option Nat)
  | Ev.submitted i =>
      match p with
      | none => some (some i)
      | some _ => none
  | Ev.terminal i =>
      match p with
      | some a => if a = i then some none else none
      | none => some none

/-- Scan a trace; `some q` means no submission interleaving occurred and
`q` is the pending submission at the end. -/
def scanPend (p : Option Nat) : List Ev → Option (Option Nat)
  | [] => some p
  | e :: t =>
      match scanStep p e with
      | some q => scanPend q t
      | none => none

/-- The job whose backend submission is currently outstanding: the gate
holder while its job is `Executing`. -/
def pendingOf (s : OrchState) : Option Nat :=
  match s.holder with
  | some i =>
      if jstateOf s i = some JobState.executing then some i else none
  | none => none

/-- No interleaving of backend submissions: between any two submission
events of a trace there is a terminal event for the first job. -/
def submissionsSeparated (h : List Ev) : Prop :=
  ∀ (i j a b : Nat), i < j → h[i]? = some (Ev.submitted a) →
    h[j]? = some (Ev.submitted b) →
    ∃ k, i < k ∧ k < j ∧ h[k]? = some (Ev.terminal a)

/-- `x` occurs strictly before `y` in the list. -/
def evBefore (x y : Ev) : List Ev → Prop
  | [] => False
  | e :: t => (e = x ∧ y ∈ t) ∨ evBefore x y t

/-- The inductive invariant of the gate state machine. -/
structure GateInv (bound : Nat) (s : OrchState) : Prop where
  nodupIds : (idsOf s.jobs).Nodup
  queueEmpty : s.holder = none → s.queue = []
  holderMem : ∀ i, s.holder = some i → i ∈ idsOf s.jobs
  queueQueued : ∀ q ∈ s.queue, jstateOf s q = some JobState.queued
  queueNodup : s.queue.Nodup
  holderNotQueued : ∀ i, s.holder = some i → i ∉ s.queue
  execIsHolder : ∀ j ∈ s.jobs, j.jstate = JobState.executing →
    s.holder = some j.jid
  queueBound : s.queue.length ≤ bound

/-! ### Theorems for the client claims -/

lemma runNav_bounds (acts : List NavAct) :
    ∀ st : Int, 0 ≤ st → st ≤ (steps.length : Int) →
      0 ≤ runNav st acts ∧ runNav st acts ≤ (steps.length : Int) := by
  induction acts with
  | nil => intro st h0 h1; exact ⟨h0, h1⟩
  | cons a l ih =>
    intro st h0 h1
    cases a with
    | next =>
      apply ih
      · unfold nextStep; split <;> omega
      · unfold nextStep; split <;> omega
    | back =>
      apply ih
      · unfold backStep; split <;> omega
      · unfold backStep; split <;> omega

/-- C10: starting from step 0, any sequence of `nextStep`/`backStep`
invocations keeps the step counter within `0 ≤ step ≤ steps.length = 5`;
`backStep` only decrements above 0, `nextStep` increments below 5, and a
`nextStep` at step 4 (the Result page, last of the 5 pages) sets the
counter to 5, one past the last page index. -/
theorem step_counter_range (acts : List NavAct) :
    steps.length = 5 ∧
    (0 ≤ runNav 0 acts ∧ runNav 0 acts ≤ 5) ∧
    nextStep 4 = 5 ∧ backStep 0 = 0 := by
  refine ⟨rfl, ?_, by decide, by decide⟩
  have h := runNav_bounds acts 0 (by decide) (by decide)
  simpa [steps] using h

/-- C8: `swapFace` resolves with the data-URL of the returned image when
the template fetch, the swap request and the JSON parse all succeed and
the `image` field is truthy; in every other case it resolves with `null`.
Being a total function into `Option String`, it never rejects. -/
theorem swapFace_never_rejects (env : SwapEnv) :
    (swapFace env = none ↔
      ¬(env.templateFetchOk = true ∧ env.swapRespOk = true ∧
        env.swapJsonOk = true ∧
        ∃ img, env.imageField = some img ∧ img ≠ "")) ∧
    (∀ img, env.imageField = some img → img ≠ "" →
      env.templateFetchOk = true → env.swapRespOk = true →
      env.swapJsonOk = true → swapFace env = some (dataUrlOf img)) := by
  obtain ⟨tf, so, jo, im⟩ := env
  constructor
  · cases tf <;> cases so <;> cases jo <;>
      rcases im with _ | img <;>
      simp [swapFace] <;>
      by_cases himg : img = "" <;> simp [himg]
  · intro img him hne h1 h2 h3
    subst h1; subst h2; subst h3
    simp at him
    simp [swapFace, him, hne]

/-- C8 witness: a concrete successful environment. -/
theorem swapFace_never_rejects_witness :
    swapFace ⟨true, true, true, some "abc"⟩ = some (dataUrlOf "abc") :=
  (swapFace_never_rejects ⟨true, true, true, some "abc"⟩).2 "abc" rfl
    (by decide) rfl rfl rfl

/-- C9: for every outcome of the awaited `swapFace` call (a non-null URL,
`null`, or a throw), `handleSwapFace`'s trace calls `goTo` exactly once
and as its last effect; the `swappedPhoto` storage entry is written
exactly when the outcome is a non-null URL, and otherwise keeps its
previous value; and `goTo` (= `nextStep`) at the Capture page (index 3)
advances to the Result page (index 4). -/
theorem capture_always_advances (outcome : SwapOutcome) (st : Option String) :
    goToCount (handleSwapFace outcome) = 1 ∧
    (handleSwapFace outcome).getLast? = some UIEffect.goTo ∧
    (∀ u, UIEffect.storeSwapped u ∈ handleSwapFace outcome ↔
      outcome = SwapOutcome.resolved (some u)) ∧
    applyStorage st (handleSwapFace outcome) =
      (match outcome with
        | SwapOutcome.resolved (some u) => some u
        | SwapOutcome.resolved none => st
        | SwapOutcome.threw => st) ∧
    nextStep 3 = 4 ∧ steps[4]? = some "Result" := by
  rcases outcome with r | _
  · rcases r with _ | u <;>
      refine ⟨rfl, rfl, ?_, rfl, by decide, rfl⟩ <;>
      intro u' <;> simp [handleSwapFace] <;> exact eq_comm
  · refine ⟨rfl, rfl, ?_, rfl, by decide, rfl⟩
    intro u'
    simp [handleSwapFace]

/-! ### Theorems for the template claim (C5) -/

lemma find?_map_pres {α : Type} (p : α → Bool) (f : α → α)
    (hf : ∀ a, p (f a) = p a) (l : List α) :
    (l.map f).find? p = (l.find? p).map f := by
  induction l with
  | nil => rfl
  | cons a t ih =>
    simp only [List.map_cons, List.find?]
    rw [hf a]
    cases h : p a
    · simpa using ih
    · rfl

lemma find?_fst_eq {l : List (String × WNode)} {i : String}
    {kv : String × WNode} (h : l.find? (fun kv => kv.1 == i) = some kv) :
    kv.1 = i := by
  have := List.find?_some h
  simpa using this

/-- C5: `clone_and_patch` rewrites exactly the two designated input
slots.  Nodes other than the two designated ones are unchanged; the
designated source (resp. template) node has its designated slot set to
an image reference to the supplied source (resp. template) image and
all its other slots kept; node ids, node types and the output
designation are preserved.  The original template value is untouched
(the embedding is a pure function, mirroring the deep-copy contract). -/
theorem template_purity (t : WorkflowTemplate) (s r : String)
    (hne : t.sourceNodeId ≠ t.templateNodeId) :
    (∀ i, i ≠ t.sourceNodeId → i ≠ t.templateNodeId →
      nodeOf (clone_and_patch t s r) i = nodeOf t i) ∧
    (∀ n, nodeOf t t.sourceNodeId = some n →
      nodeOf (clone_and_patch t s r) t.sourceNodeId =
        some (patchSlot n t.sourceSlot s)) ∧
    (∀ n, nodeOf t t.templateNodeId = some n →
      nodeOf (clone_and_patch t s r) t.templateNodeId =
        some (patchSlot n t.templateSlot r)) ∧
    (clone_and_patch t s r).nodes.map Prod.fst = t.nodes.map Prod.fst ∧
    (clone_and_patch t s r).outputNodeId = t.outputNodeId ∧
    (∀ (n : WNode) slot ref k, k ≠ slot →
      slotOf (patchSlot n slot ref) k = slotOf n k) ∧
    (∀ (n : WNode) slot ref v, slotOf n slot = some v →
      slotOf (patchSlot n slot ref) slot = some (SlotVal.imageRef ref)) ∧
    (∀ (n : WNode) slot ref, (patchSlot n slot ref).nodeType = n.nodeType) := by
  have hg : ∀ (i : String) (kv : String × WNode),
      ((if kv.1 = t.sourceNodeId then (kv.1, patchSlot kv.2 t.sourceSlot s)
        else if kv.1 = t.templateNodeId then
          (kv.1, patchSlot kv.2 t.templateSlot r)
        else kv).1 == i) = (kv.1 == i) := by
    intro i kv
    by_cases h1 : kv.1 = t.sourceNodeId <;>
      by_cases h2 : kv.1 = t.templateNodeId <;>
      simp [h1, h2, Ne.symm hne]
  have hfind : ∀ i, (clone_and_patch t s r).nodes.find? (fun kv => kv.1 == i) =
      (t.nodes.find? (fun kv => kv.1 == i)).map
        (fun kv => if kv.1 = t.sourceNodeId then
            (kv.1, patchSlot kv.2 t.sourceSlot s)
          else if kv.1 = t.templateNodeId then
            (kv.1, patchSlot kv.2 t.templateSlot r)
          else kv) := by
    intro i
    exact find?_map_pres _ _ (hg i) t.nodes
  refine ⟨?_, ?_, ?_, ?_, rfl, ?_, ?_, ?_⟩
  · intro i hi1 hi2
    unfold nodeOf
    rw [hfind i]
    cases hf : t.nodes.find? (fun kv => kv.1 == i) with
    | none => rfl
    | some kv =>
      have hk : kv.1 = i := find?_fst_eq hf
      simp [hk, hi1, hi2]
  · intro n hn
    unfold nodeOf at hn ⊢
    rw [hfind t.sourceNodeId]
    cases hf : t.nodes.find? (fun kv => kv.1 == t.sourceNodeId) with
    | none => rw [hf] at hn; simp at hn
    | some kv =>
      have hk : kv.1 = t.sourceNodeId := find?_fst_eq hf
      rw [hf] at hn
      simp at hn
      simp [hk, ← hn]
  · intro n hn
    unfold nodeOf at hn ⊢
    rw [hfind t.templateNodeId]
    cases hf : t.nodes.find? (fun kv => kv.1 == t.templateNodeId) with
    | none => rw [hf] at hn; simp at hn
    | some kv =>
      have hk : kv.1 = t.templateNodeId := find?_fst_eq hf
      rw [hf] at hn
      simp at hn
      simp [hk, Ne.symm hne, ← hn]
  · unfold clone_and_patch
    simp only [List.map_map]
    apply List.map_congr_left
    intro kv _
    by_cases h1 : kv.1 = t.sourceNodeId <;>
      by_cases h2 : kv.1 = t.templateNodeId <;>
      simp [h1, h2, Ne.symm hne]
  · intro n slot ref k hk
    have hpres : ∀ kv : String × SlotVal,
        ((if kv.1 = slot then (kv.1, SlotVal.imageRef ref) else kv).1 == k) =
          (kv.1 == k) := by
      intro kv
      by_cases h : kv.1 = slot <;> simp [h]
    simp only [slotOf, patchSlot]
    rw [find?_map_pres _ _ hpres]
    cases hf : n.inputs.find? (fun kv => kv.1 == k) with
    | none => rfl
    | some kv =>
      have := List.find?_some hf
      have hk1 : kv.1 = k := by simpa using this
      simp [hk1, hk]
  · intro n slot ref v hv
    have hpres : ∀ kv : String × SlotVal,
        ((if kv.1 = slot then
            (kv.1, SlotVal.imageRef ref) else kv).1 == slot) =
          (kv.1 == slot) := by
      intro kv
      by_cases h : kv.1 = slot <;> simp [h]
    simp only [slotOf, patchSlot] at hv ⊢
    rw [find?_map_pres _ _ hpres]
    cases hf : n.inputs.find? (fun kv => kv.1 == slot) with
    | none => rw [hf] at hv; simp at hv
    | some kv =>
      have := List.find?_some hf
      have hk1 : kv.1 = slot := by simpa using this
      simp [hk1]
  · intro n slot ref
    rfl

/-- A small concrete workflow template used to exercise the theorems. -/
def sampleTemplate : WorkflowTemplate :=
  { nodes :=
      [("1", ⟨"LoadImage", [("image", SlotVal.lit "placeholder_a")]⟩),
       ("2", ⟨"LoadImage", [("image", SlotVal.lit "placeholder_b")]⟩),
       ("5", ⟨"FaceSwap", [("strength", SlotVal.lit "1.0")]⟩),
       ("9", ⟨"SaveImage", []⟩)],
    sourceNodeId := "1", sourceSlot := "image",
    templateNodeId := "2", templateSlot := "image",
    outputNodeId := "9" }

/-- C5 witness: on a concrete template, an undesignated node is
unchanged and the designated source node gets the image reference. -/
theorem template_purity_witness :
    nodeOf (clone_and_patch sampleTemplate "src_ref" "tmpl_ref") "5" =
      nodeOf sampleTemplate "5" ∧
    nodeOf (clone_and_patch sampleTemplate "src_ref" "tmpl_ref") "1" =
      some (patchSlot ⟨"LoadImage", [("image", SlotVal.lit "placeholder_a")]⟩
        "image" "src_ref") :=
  ⟨(template_purity sampleTemplate "src_ref" "tmpl_ref" (by decide)).1 "5"
      (by decide) (by decide),
    (template_purity sampleTemplate "src_ref" "tmpl_ref" (by decide)).2.1
      ⟨"LoadImage", [("image", SlotVal.lit "placeholder_a")]⟩ (by decide)⟩

/-! ### Theorems for the debounce claim (C6) -/

lemma debounceFire_spec (D : Nat) (rest : List Nat) :
    ∀ t, List.Pairwise (fun a b => a ≤ b) (t :: rest) →
      ∃ x ∈ t :: rest, debounceFire D t rest = x + D ∧
        ∀ u ∈ t :: rest, ¬(x < u ∧ u ≤ x + D) := by
  induction rest with
  | nil =>
    intro t _
    refine ⟨t, by simp, rfl, ?_⟩
    intro u hu
    simp at hu
    omega
  | cons u rest ih =>
    intro t hp
    have hp1 : List.Pairwise (fun a b => a ≤ b) (u :: rest) := hp.tail
    have htu : t ≤ u := by
      have := List.pairwise_cons.mp hp
      exact this.1 u (by simp)
    by_cases hle : u ≤ t + D
    · obtain ⟨x, hx, hfire, hquiet⟩ := ih u hp1
      refine ⟨x, by simp [List.mem_cons] at hx ⊢; tauto, ?_, ?_⟩
      · simpa [debounceFire, hle] using hfire
      · intro v hv
        rcases List.mem_cons.mp hv with hv1 | hv2
        · subst hv1
          have hux : u ≤ x := by
            rcases List.mem_cons.mp hx with h | h
            · omega
            · have := List.pairwise_cons.mp hp1
              have := this.1 x h
              omega
          omega
        · exact hquiet v hv2
    · refine ⟨t, by simp, by simp [debounceFire, hle], ?_⟩
      intro v hv
      rcases List.mem_cons.mp hv with hv1 | hv2
      · omega
      · rcases List.mem_cons.mp hv2 with hv3 | hv4
        · omega
        · have := List.pairwise_cons.mp hp1
          have huv : u ≤ v := this.1 v hv4
          omega
    -- end cases

lemma debounceFire_last (D : Nat) (rest : List Nat) :
    ∀ t, List.Chain' (fun a b => b ≤ a + D) (t :: rest) →
      debounceFire D t rest = rest.getLastD t + D := by
  induction rest with
  | nil => intro t _; rfl
  | cons u rest ih =>
    intro t hc
    have hle : u ≤ t + D := List.chain'_cons.mp hc |>.1
    have hc1 : List.Chain' (fun a b => b ≤ a + D) (u :: rest) :=
      List.chain'_cons.mp hc |>.2
    rw [show debounceFire D t (u :: rest) = debounceFire D u rest from by
      simp [debounceFire, hle]]
    rw [ih u hc1]
    cases rest <;> simp [List.getLastD]

/-- C6: for every watched path with at least one event in a time-ordered
event stream, exactly one ingestion is produced; it fires at `x + D` for
some event time `x` of that path after which no further event of that
path occurred within the quiet period `D`; and when every inter-chunk
delay is within the threshold, the single ingestion fires one quiet
period after the final chunk.  Events of other paths use their own
timers and do not disturb this (the statement holds for each path of the
same stream). -/
theorem debounce_single_ingestion (D : Nat) (p : String)
    (evs : List (String × Nat))
    (hsort : List.Pairwise (fun a b : String × Nat => a.2 ≤ b.2) evs)
    (hne : eventsFor p evs ≠ []) :
    (ingestionsFor D p evs).length = 1 ∧
    (∃ x ∈ eventsFor p evs, ingestionsFor D p evs = [x + D] ∧
      ∀ u ∈ eventsFor p evs, ¬(x < u ∧ u ≤ x + D)) ∧
    (List.Chain' (fun a b => b ≤ a + D) (eventsFor p evs) →
      ∀ t rest, eventsFor p evs = t :: rest →
        ingestionsFor D p evs = [rest.getLastD t + D]) := by
  have hsorted : List.Pairwise (fun a b => a ≤ b) (eventsFor p evs) := by
    unfold eventsFor
    apply List.pairwise_map.mpr
    exact List.Pairwise.filter _ hsort
  cases hev : eventsFor p evs with
  | nil => exact absurd hev hne
  | cons t rest =>
    rw [hev] at hsorted
    refine ⟨by simp [ingestionsFor, hev, ingestionTimes], ?_, ?_⟩
    · obtain ⟨x, hx, hfire, hquiet⟩ := debounceFire_spec D rest t hsorted
      refine ⟨x, hx, ?_, ?_⟩
      · simp [ingestionsFor, hev, ingestionTimes, hfire]
      · intro u hu
        exact hquiet u hu
    · intro hchain t2 rest2 hev2
      injection hev2 with ht hr
      subst ht; subst hr
      have hlast := debounceFire_last D rest t hchain
      simp [ingestionsFor, hev, ingestionTimes, hlast]

/-- A small concrete hot-folder event stream: path "a" written in three
chunks (two close together, one late), path "b" written once. -/
def sampleEvents : List (String × Nat) :=
  [("a", 0), ("a", 1), ("b", 2), ("a", 10)]

/-- C6 witness: the concrete stream yields exactly one ingestion for
path "a". -/
theorem debounce_single_ingestion_witness :
    (ingestionsFor 2 "a" sampleEvents).length = 1 :=
  (debounce_single_ingestion 2 "a" sampleEvents (by decide) (by decide)).1

/-! ### Theorem for the typed-result claim (C7) -/

/-- C7: for every backend behaviour and every gate/queue situation,
`process` either returns non-empty image bytes or fails with one of the
four typed errors of its contract (`SubmissionError`, `TimeoutError`,
`RetrievalError`, `BackendUnavailable`); it never returns empty bytes
and never surfaces an error outside that set. -/
theorem process_typed_result (bound qlen : Nat) (g : Bool)
    (b : BackendBehavior) :
    match process bound qlen g b with
    | Except.ok bytes => bytes ≠ []
    | Except.error e =>
        e = OrchError.submissionError ∨ e = OrchError.timeoutError ∨
        e = OrchError.retrievalError ∨ e = OrchError.backendUnavailable := by
  by_cases hg : g = true ∧ bound ≤ qlen
  · simp [process, hg]
  · rw [show process bound qlen g b = runJob b from by simp [process, hg]]
    unfold runJob
    cases hsa : b.submitAccepted
    · simp
    · simp only [Bool.true_eq_false, if_false]
      cases hte : b.terminalEvent with
      | none => simp
      | some tk =>
        cases tk
        · by_cases ha : b.artifact = [] <;> simp [ha]
        · simp

/-! ### Helper lemmas about the gate state machine -/

lemma idsOf_append (js : List Job) (j : Job) :
    idsOf (js ++ [j]) = idsOf js ++ [j.jid] := by
  simp [idsOf]

lemma idsOf_setJob (js : List Job) (i : Nat) (st : JobState) :
    idsOf (setJob js i st) = idsOf js := by
  unfold idsOf setJob
  rw [List.map_map]
  apply List.map_congr_left
  intro j _
  by_cases h : j.jid = i <;> simp [h]

lemma mem_ids_find? {js : List Job} {i : Nat} (h : i ∈ idsOf js) :
    ∃ j0, js.find? (fun j => j.jid == i) = some j0 ∧ j0.jid = i := by
  have hex : ∃ x, x ∈ js ∧ (fun j : Job => j.jid == i) x = true := by
    obtain ⟨j, hj, hji⟩ := List.mem_map.mp h
    exact ⟨j, hj, by simp [hji]⟩
  have hs := List.find?_isSome.mpr hex
  cases hf : js.find? (fun j => j.jid == i) with
  | none => rw [hf] at hs; simp at hs
  | some j0 =>
    refine ⟨j0, rfl, ?_⟩
    have := List.find?_some hf
    simpa using this

lemma find?_jid_none {js : List Job} {i : Nat} (h : i ∉ idsOf js) :
    js.find? (fun j => j.jid == i) = none := by
  cases hf : js.find? (fun j => j.jid == i) with
  | none => rfl
  | some j0 =>
    have h1 : j0.jid = i := by simpa using List.find?_some hf
    have h2 : j0 ∈ js := List.mem_of_find?_eq_some hf
    exact absurd (h1 ▸ List.mem_map_of_mem Job.jid h2) h

lemma ids_of_jstateIn {js : List Job} {i : Nat} {st : JobState}
    (h : jstateIn js i = some st) : i ∈ idsOf js := by
  unfold jstateIn at h
  cases hf : js.find? (fun j => j.jid == i) with
  | none => rw [hf] at h; simp at h
  | some j0 =>
    have h1 : j0.jid = i := by simpa using List.find?_some hf
    have h2 : j0 ∈ js := List.mem_of_find?_eq_some hf
    exact h1 ▸ List.mem_map_of_mem Job.jid h2

lemma jstateIn_append_left {js : List Job} (j : Job) {k : Nat}
    (h : k ∈ idsOf js) : jstateIn (js ++ [j]) k = jstateIn js k := by
  obtain ⟨j0, hf, _⟩ := mem_ids_find? h
  unfold jstateIn
  rw [List.find?_append, hf]
  rfl

lemma jstateIn_append_fresh {js : List Job} {j : Job}
    (h : j.jid ∉ idsOf js) : jstateIn (js ++ [j]) j.jid = some j.jstate := by
  unfold jstateIn
  rw [List.find?_append, find?_jid_none h]
  simp

lemma jstateIn_setJob_self {js : List Job} {i : Nat} (st : JobState)
    (h : i ∈ idsOf js) : jstateIn (setJob js i st) i = some st := by
  obtain ⟨j0, hf, hj0⟩ := mem_ids_find? h
  unfold jstateIn setJob
  rw [find?_map_pres _ _ (fun j => by
    by_cases hc : (j.jid == i) = true <;> simp [hc])]
  rw [hf]
  simp [hj0]

lemma jstateIn_setJob_other {js : List Job} {i k : Nat} (st : JobState)
    (h : k ≠ i) : jstateIn (setJob js i st) k = jstateIn js k := by
  unfold jstateIn setJob
  rw [find?_map_pres _ _ (fun j => by
    by_cases hc : (j.jid == i) = true <;> simp [hc])]
  cases hf : js.find? (fun j => j.jid == k) with
  | none => rfl
  | some j0 =>
    have h1 : j0.jid = k := by simpa using List.find?_some hf
    simp [h1, h]

lemma head?_mem_list {l : List Nat} {q : Nat} (h : l.head? = some q) :
    q ∈ l := by
  cases l with
  | nil => simp at h
  | cons x t =>
    simp at h
    subst h
    exact List.mem_cons_self x t

lemma mem_of_tail {l : List Nat} {q : Nat} (h : q ∈ l.tail) : q ∈ l := by
  cases l with
  | nil => simpa using h
  | cons x t => exact List.mem_cons_of_mem x h

lemma initState_inv (bound : Nat) : GateInv bound initState := by
  refine ⟨?_, ?_, ?_, ?_, ?_, ?_, ?_, ?_⟩
  · simp [initState, idsOf]
  · intro _; rfl
  · intro i h; exact absurd h (by simp [initState])
  · intro q hq; exact absurd hq (by simp [initState])
  · simp [initState]
  · intro i h; exact absurd h (by simp [initState])
  · intro j hj _; exact absurd hj (by simp [initState])
  · simp [initState]

lemma inv_release (bound : Nat) (s : OrchState) (i : Nat) (st : JobState)
    (hinv : GateInv bound s) (hh : s.holder = some i)
    (hst : st ≠ JobState.executing) :
    GateInv bound (releaseGate { s with jobs := setJob s.jobs i st }) := by
  have hnq : i ∉ s.queue := hinv.holderNotQueued i hh
  refine ⟨?_, ?_, ?_, ?_, ?_, ?_, ?_, ?_⟩
  · show (idsOf (setJob s.jobs i st)).Nodup
    rw [idsOf_setJob]
    exact hinv.nodupIds
  · intro h
    show s.queue.tail = []
    have he : s.queue = [] := List.head?_eq_none_iff.mp h
    rw [he]
    rfl
  · intro k hk
    show k ∈ idsOf (setJob s.jobs i st)
    rw [idsOf_setJob]
    exact ids_of_jstateIn (hinv.queueQueued k (head?_mem_list hk))
  · intro q hq
    show jstateIn (setJob s.jobs i st) q = some JobState.queued
    have hqq : q ∈ s.queue := mem_of_tail hq
    have hne : q ≠ i := fun he => hnq (he ▸ hqq)
    rw [jstateIn_setJob_other st hne]
    exact hinv.queueQueued q hqq
  · show s.queue.tail.Nodup
    have := hinv.queueNodup
    cases hq : s.queue with
    | nil => simp
    | cons x t =>
      rw [hq] at this
      simpa using (List.nodup_cons.mp this).2
  · intro k hk
    show k ∉ s.queue.tail
    have hk2 : s.queue.head? = some k := hk
    have := hinv.queueNodup
    cases hq : s.queue with
    | nil => simp
    | cons x t =>
      rw [hq] at this hk2
      have hkx : k = x := by simpa using hk2.symm
      subst hkx
      simpa using (List.nodup_cons.mp this).1
  · intro j hj hex
    exfalso
    obtain ⟨j0, hj0, hje⟩ := List.mem_map.mp hj
    by_cases hc : j0.jid = i
    · rw [← hje] at hex
      simp [hc] at hex
      exact hst hex
    · rw [← hje] at hex
      simp [hc] at hex
      have hhold := hinv.execIsHolder j0 hj0 hex
      rw [hh] at hhold
      exact hc (Option.some.inj hhold).symm
  · show s.queue.tail.length ≤ bound
    calc s.queue.tail.length ≤ s.queue.length := by cases s.queue <;> simp
    _ ≤ bound := hinv.queueBound

lemma inv_step (bound : Nat) (s : OrchState) (a : Act)
    (hinv : GateInv bound s) : GateInv bound (stepA bound s a) := by
  cases a with
  | arrive i o =>
    by_cases h0 : i ∈ idsOf s.jobs ∨ i ∈ s.rejected
    · simpa [stepA, h0] using hinv
    · push_neg at h0
      obtain ⟨hi1, hi2⟩ := h0
      by_cases h1 : s.holder = none
      · have hqe : s.queue = [] := hinv.queueEmpty h1
        rw [show stepA bound s (Act.arrive i o) =
            { s with holder := some i,
                     jobs := s.jobs ++ [⟨i, o, JobState.queued⟩] } from by
          simp [stepA, hi1, hi2, h1]]
        refine ⟨?_, ?_, ?_, ?_, ?_, ?_, ?_, ?_⟩
        · show (idsOf (s.jobs ++ [⟨i, o, JobState.queued⟩])).Nodup
          rw [idsOf_append]
          simp [List.nodup_append, hinv.nodupIds, hi1]
        · intro h; exact absurd h (by simp)
        · intro k hk
          have hki : k = i := by simpa using hk.symm
          subst hki
          rw [idsOf_append]
          simp
        · intro q hq
          rw [hqe] at hq
          exact absurd hq (by simp)
        · exact hinv.queueNodup
        · intro k hk
          show k ∉ s.queue
          rw [hqe]
          simp
        · intro j hj hex
          exfalso
          rcases List.mem_append.mp hj with hj1 | hj2
          · have := hinv.execIsHolder j hj1 hex
            rw [h1] at this
            exact Option.noConfusion this
          · have : j = ⟨i, o, JobState.queued⟩ := by simpa using hj2
            rw [this] at hex
            exact JobState.noConfusion hex
        · exact hinv.queueBound
      · by_cases h2 : s.queue.length < bound
        · rw [show stepA bound s (Act.arrive i o) =
              { s with queue := s.queue ++ [i],
                       jobs := s.jobs ++ [⟨i, o, JobState.queued⟩] } from by
            simp [stepA, hi1, hi2, h1, h2]]
          have hiq : i ∉ s.queue := fun hm =>
            hi1 (ids_of_jstateIn (hinv.queueQueued i hm))
          refine ⟨?_, ?_, ?_, ?_, ?_, ?_, ?_, ?_⟩
          · show (idsOf (s.jobs ++ [⟨i, o, JobState.queued⟩])).Nodup
            rw [idsOf_append]
            simp [List.nodup_append, hinv.nodupIds, hi1]
          · intro h; exact absurd h h1
          · intro k hk
            rw [idsOf_append]
            exact List.mem_append_left _ (hinv.holderMem k hk)
          · intro q hq
            rcases List.mem_append.mp hq with hq1 | hq2
            · show jstateIn (s.jobs ++ [⟨i, o, JobState.queued⟩]) q =
                some JobState.queued
              rw [jstateIn_append_left _
                (ids_of_jstateIn (hinv.queueQueued q hq1))]
              exact hinv.queueQueued q hq1
            · have hqi : q = i := by simpa using hq2
              subst hqi
              show jstateIn (s.jobs ++ [⟨q, o, JobState.queued⟩]) q =
                some JobState.queued
              exact jstateIn_append_fresh hi1
          · show (s.queue ++ [i]).Nodup
            simp [List.nodup_append, hinv.queueNodup, hiq]
          · intro k hk
            have hkm : k ∈ idsOf s.jobs := hinv.holderMem k hk
            have hki : k ≠ i := fun he => hi1 (he ▸ hkm)
            intro hmem
            rcases List.mem_append.mp hmem with hm1 | hm2
            · exact hinv.holderNotQueued k hk hm1
            · exact hki (by simpa using hm2)
          · intro j hj hex
            rcases List.mem_append.mp hj with hj1 | hj2
            · exact hinv.execIsHolder j hj1 hex
            · exfalso
              have : j = ⟨i, o, JobState.queued⟩ := by simpa using hj2
              rw [this] at hex
              exact JobState.noConfusion hex
          · show (s.queue ++ [i]).length ≤ bound
            simp
            omega
        · rw [show stepA bound s (Act.arrive i o) =
              { s with rejected := s.rejected ++ [i] } from by
            simp [stepA, hi1, hi2, h1, h2]]
          exact ⟨hinv.nodupIds, hinv.queueEmpty, hinv.holderMem,
            hinv.queueQueued, hinv.queueNodup, hinv.holderNotQueued,
            hinv.execIsHolder, hinv.queueBound⟩
  | submit i =>
    by_cases hg : s.holder = some i ∧ jstateOf s i = some JobState.queued
    · obtain ⟨hh, hq⟩ := hg
      rw [show stepA bound s (Act.submit i) =
          { s with jobs := setJob s.jobs i JobState.executing } from by
        simp [stepA, hh, hq]]
      have hmem : i ∈ idsOf s.jobs := ids_of_jstateIn hq
      have hnq : i ∉ s.queue := hinv.holderNotQueued i hh
      refine ⟨?_, ?_, ?_, ?_, ?_, ?_, ?_, ?_⟩
      · show (idsOf (setJob s.jobs i JobState.executing)).Nodup
        rw [idsOf_setJob]
        exact hinv.nodupIds
      · intro h; exact absurd h (hh ▸ by simp [hh])
      · intro k hk
        show k ∈ idsOf (setJob s.jobs i JobState.executing)
        rw [idsOf_setJob]
        exact hinv.holderMem k hk
      · intro q hqm
        have hne : q ≠ i := fun he => hnq (he ▸ hqm)
        show jstateIn (setJob s.jobs i JobState.executing) q =
          some JobState.queued
        rw [jstateIn_setJob_other _ hne]
        exact hinv.queueQueued q hqm
      · exact hinv.queueNodup
      · exact hinv.holderNotQueued
      · intro j hj hex
        obtain ⟨j0, hj0, hje⟩ := List.mem_map.mp hj
        by_cases hc : j0.jid = i
        · have hji : j.jid = i := by rw [← hje]; simp [hc]
          show s.holder = some j.jid
          rw [hji]
          exact hh
        · have hjj : j = j0 := by rw [← hje]; simp [hc]
          rw [hjj] at hex
          show s.holder = some j.jid
          rw [hjj]
          exact hinv.execIsHolder j0 hj0 hex
      · exact hinv.queueBound
    · simpa [stepA, hg] using hinv
  | finishOk i =>
    by_cases hg : s.holder = some i ∧ jstateOf s i = some JobState.executing
    · rw [show stepA bound s (Act.finishOk i) =
          releaseGate { s with jobs := setJob s.jobs i JobState.completed }
          from by simp [stepA, hg.1, hg.2]]
      exact inv_release bound s i JobState.completed hinv hg.1 (by decide)
    · simpa [stepA, hg] using hinv
  | finishErr i =>
    by_cases hg : s.holder = some i ∧ (jstateOf s i = some JobState.queued ∨
        jstateOf s i = some JobState.executing)
    · rw [show stepA bound s (Act.finishErr i) =
          releaseGate { s with jobs := setJob s.jobs i JobState.failed }
          from by simp [stepA, hg.1, hg.2]]
      exact inv_release bound s i JobState.failed hinv hg.1 (by decide)
    · simpa [stepA, hg] using hinv
  | expire i =>
    by_cases hg : s.holder = some i ∧ (jstateOf s i = some JobState.queued ∨
        jstateOf s i = some JobState.executing)
    · rw [show stepA bound s (Act.expire i) =
          releaseGate { s with jobs := setJob s.jobs i JobState.timedOut }
          from by simp [stepA, hg.1, hg.2]]
      exact inv_release bound s i JobState.timedOut hinv hg.1 (by decide)
    · simpa [stepA, hg] using hinv

lemma pendingOf_release (bound : Nat) (s : OrchState) (i : Nat)
    (st : JobState) (hinv : GateInv bound s) (hh : s.holder = some i) :
    pendingOf (releaseGate { s with jobs := setJob s.jobs i st }) = none := by
  have hnq := hinv.holderNotQueued i hh
  simp only [pendingOf, jstateOf, releaseGate]
  cases hqh : s.queue.head? with
  | none => rfl
  | some x =>
    have hxq : x ∈ s.queue := head?_mem_list hqh
    have hxi : x ≠ i := fun he => hnq (he ▸ hxq)
    have hx : jstateIn (setJob s.jobs i st) x = some JobState.queued := by
      rw [jstateIn_setJob_other st hxi]
      exact hinv.queueQueued x hxq
    simp [hx]

lemma pendingOf_step (bound : Nat) (s : OrchState) (a : Act)
    (hinv : GateInv bound s) :
    scanPend (pendingOf s) (emitA s a) = some (pendingOf (stepA bound s a)) := by
  cases a with
  | arrive i o =>
    show some (pendingOf s) = some (pendingOf (stepA bound s (Act.arrive i o)))
    congr 1
    by_cases h0 : i ∈ idsOf s.jobs ∨ i ∈ s.rejected
    · simp [stepA, h0]
    · push_neg at h0
      obtain ⟨hi1, hi2⟩ := h0
      by_cases h1 : s.holder = none
      · rw [show stepA bound s (Act.arrive i o) =
            { s with holder := some i,
                     jobs := s.jobs ++ [⟨i, o, JobState.queued⟩] } from by
          simp [stepA, hi1, hi2, h1]]
        have hfresh : jstateIn (s.jobs ++ [⟨i, o, JobState.queued⟩]) i =
            some JobState.queued :=
          jstateIn_append_fresh (j := ⟨i, o, JobState.queued⟩) hi1
        have hq2 : jstateOf { s with holder := some i, jobs := s.jobs ++ [⟨i, o, JobState.queued⟩] } i = some JobState.queued := hfresh
        simp [pendingOf, h1, hq2]
      · cases hh : s.holder with
        | none => exact absurd hh h1
        | some h =>
          by_cases h2 : s.queue.length < bound
          · rw [show stepA bound s (Act.arrive i o) =
                { s with queue := s.queue ++ [i],
                         jobs := s.jobs ++ [⟨i, o, JobState.queued⟩] } from by
              simp [stepA, hi1, hi2, h1, h2]]
            have hmem : h ∈ idsOf s.jobs := hinv.holderMem h hh
            have hpres : jstateIn (s.jobs ++ [⟨i, o, JobState.queued⟩]) h =
                jstateIn s.jobs h := jstateIn_append_left _ hmem
            have heq : jstateOf { s with queue := s.queue ++ [i], jobs := s.jobs ++ [⟨i, o, JobState.queued⟩] } h = jstateOf s h := hpres
            rw [hh] at heq
            simp [pendingOf, hh, heq]
          · rw [show stepA bound s (Act.arrive i o) =
                { s with rejected := s.rejected ++ [i] } from by
              simp [stepA, hi1, hi2, h1, h2]]
            rfl
  | submit i =>
    by_cases hg : s.holder = some i ∧ jstateOf s i = some JobState.queued
    · obtain ⟨hh, hq⟩ := hg
      rw [show stepA bound s (Act.submit i) =
          { s with jobs := setJob s.jobs i JobState.executing } from by
        simp [stepA, hh, hq]]
      rw [show emitA s (Act.submit i) = [Ev.submitted i] from by
        simp [emitA, hh, hq]]
      have hp : pendingOf s = none := by simp [pendingOf, hh, hq]
      have hmem : i ∈ idsOf s.jobs := ids_of_jstateIn hq
      have hset : jstateOf { s with jobs := setJob s.jobs i JobState.executing } i = some JobState.executing :=
        jstateIn_setJob_self JobState.executing hmem
      rw [hp]
      show some (some i) = some (pendingOf _)
      rw [hh] at hset
      simp [pendingOf, hh, hset]
    · rw [show stepA bound s (Act.submit i) = s from by simp [stepA, hg]]
      rw [show emitA s (Act.submit i) = [] from by simp [emitA, hg]]
      rfl
  | finishOk i =>
    by_cases hg : s.holder = some i ∧ jstateOf s i = some JobState.executing
    · obtain ⟨hh, hex⟩ := hg
      rw [show stepA bound s (Act.finishOk i) =
          releaseGate { s with jobs := setJob s.jobs i JobState.completed }
          from by simp [stepA, hh, hex]]
      rw [show emitA s (Act.finishOk i) = [Ev.terminal i] from by
        simp [emitA, hh, hex]]
      have hp : pendingOf s = some i := by simp [pendingOf, hh, hex]
      rw [hp, pendingOf_release bound s i JobState.completed hinv hh]
      simp [scanPend, scanStep]
    · rw [show stepA bound s (Act.finishOk i) = s from by simp [stepA, hg]]
      rw [show emitA s (Act.finishOk i) = [] from by simp [emitA, hg]]
      rfl
  | finishErr i =>
    by_cases hg : s.holder = some i ∧ (jstateOf s i = some JobState.queued ∨
        jstateOf s i = some JobState.executing)
    · obtain ⟨hh, hqe⟩ := hg
      rw [show stepA bound s (Act.finishErr i) =
          releaseGate { s with jobs := setJob s.jobs i JobState.failed }
          from by simp [stepA, hh, hqe]]
      rw [show emitA s (Act.finishErr i) = [Ev.terminal i] from by
        simp [emitA, hh, hqe]]
      rw [pendingOf_release bound s i JobState.failed hinv hh]
      rcases hqe with hq0 | hex
      · have hp : pendingOf s = none := by simp [pendingOf, hh, hq0]
        rw [hp]
        simp [scanPend, scanStep]
      · have hp : pendingOf s = some i := by simp [pendingOf, hh, hex]
        rw [hp]
        simp [scanPend, scanStep]
    · rw [show stepA bound s (Act.finishErr i) = s from by simp [stepA, hg]]
      rw [show emitA s (Act.finishErr i) = [] from by simp [emitA, hg]]
      rfl
  | expire i =>
    by_cases hg : s.holder = some i ∧ (jstateOf s i = some JobState.queued ∨
        jstateOf s i = some JobState.executing)
    · obtain ⟨hh, hqe⟩ := hg
      rw [show stepA bound s (Act.expire i) =
          releaseGate { s with jobs := setJob s.jobs i JobState.timedOut }
          from by simp [stepA, hh, hqe]]
      rw [show emitA s (Act.expire i) = [Ev.terminal i] from by
        simp [emitA, hh, hqe]]
      rw [pendingOf_release bound s i JobState.timedOut hinv hh]
      rcases hqe with hq0 | hex
      · have hp : pendingOf s = none := by simp [pendingOf, hh, hq0]
        rw [hp]
        simp [scanPend, scanStep]
      · have hp : pendingOf s = some i := by simp [pendingOf, hh, hex]
        rw [hp]
        simp [scanPend, scanStep]
    · rw [show stepA bound s (Act.expire i) = s from by simp [stepA, hg]]
      rw [show emitA s (Act.expire i) = [] from by simp [emitA, hg]]
      rfl

lemma scanPend_append (p : Option Nat) (l1 l2 : List Ev) :
    scanPend p (l1 ++ l2) =
      match scanPend p l1 with
      | some q => scanPend q l2
      | none => none := by
  induction l1 generalizing p with
  | nil => rfl
  | cons e t ih =>
    show scanPend p (e :: (t ++ l2)) = _
    cases hs : scanStep p e with
    | some q => simp [scanPend, hs, ih q]
    | none => simp [scanPend, hs]

lemma runA_inv_scan (bound : Nat) (acts : List Act) :
    ∀ s, GateInv bound s →
      GateInv bound (runA bound s acts) ∧
      scanPend (pendingOf s) (traceA bound s acts) =
        some (pendingOf (runA bound s acts)) := by
  induction acts with
  | nil => intro s h; exact ⟨h, rfl⟩
  | cons a l ih =>
    intro s h
    have h1 := inv_step bound s a h
    obtain ⟨h2, h3⟩ := ih (stepA bound s a) h1
    refine ⟨h2, ?_⟩
    show scanPend (pendingOf s)
      (emitA s a ++ traceA bound (stepA bound s a) l) = _
    rw [scanPend_append, pendingOf_step bound s a h]
    exact h3

lemma scan_sub (t : List Ev) (a : Nat) (q : Option Nat)
    (hscan : scanPend (some a) t = some q) :
    ∀ (j : Nat) (b : Nat), t[j]? = some (Ev.submitted b) →
      ∃ k, k < j ∧ t[k]? = some (Ev.terminal a) := by
  cases t with
  | nil =>
    intro j b hj
    simp at hj
  | cons e t2 =>
    intro j b hj
    cases e with
    | submitted c =>
      exfalso
      simp [scanPend, scanStep] at hscan
    | terminal c =>
      have hac : a = c := by
        by_contra hne
        simp [scanPend, scanStep, hne] at hscan
      subst hac
      cases j with
      | zero => simp at hj
      | succ j2 => exact ⟨0, Nat.succ_pos j2, by simp⟩

lemma scan_sep (t : List Ev) : ∀ (p q : Option Nat),
    scanPend p t = some q → submissionsSeparated t := by
  induction t with
  | nil =>
    intro p q _ i j a b _ hi _
    simp at hi
  | cons e t2 ih =>
    intro p q hscan i j a b hij hi hj
    cases hs : scanStep p e with
    | none => simp [scanPend, hs] at hscan
    | some p2 =>
      have hscan2 : scanPend p2 t2 = some q := by
        simpa [scanPend, hs] using hscan
      cases i with
      | zero =>
        have he : e = Ev.submitted a := by simpa using hi
        subst he
        have hp2 : p2 = some a := by
          cases p with
          | none =>
            simp [scanStep] at hs
            exact hs.symm
          | some x => simp [scanStep] at hs
        subst hp2
        cases j with
        | zero => omega
        | succ j2 =>
          have hj2 : t2[j2]? = some (Ev.submitted b) := by simpa using hj
          obtain ⟨k2, hk2, hk2t⟩ := scan_sub t2 a q hscan2 j2 b hj2
          refine ⟨k2 + 1, Nat.succ_pos k2, by omega, by simpa using hk2t⟩
      | succ i2 =>
        cases j with
        | zero => omega
        | succ j2 =>
          have hi2 : t2[i2]? = some (Ev.submitted a) := by simpa using hi
          have hj2 : t2[j2]? = some (Ev.submitted b) := by simpa using hj
          obtain ⟨k2, hka, hkb, hk3⟩ :=
            ih p2 q hscan2 i2 j2 a b (by omega) hi2 hj2
          refine ⟨k2 + 1, by omega, by omega, by simpa using hk3⟩

lemma all_eq_nodup_length {l : List Nat} {c : Nat} (hnd : l.Nodup)
    (hall : ∀ x ∈ l, x = c) : l.length ≤ 1 := by
  cases l with
  | nil => simp
  | cons x t =>
    cases t with
    | nil => simp
    | cons y t2 =>
      exfalso
      have hx : x = c := hall x (by simp)
      have hy : y = c := hall y (by simp)
      have : x ∉ y :: t2 := (List.nodup_cons.mp hnd).1
      exact this (by rw [hx, hy]; exact List.mem_cons_self c t2)

lemma execCount_le_one (bound : Nat) (s : OrchState)
    (hinv : GateInv bound s) : execCount s ≤ 1 := by
  unfold execCount
  set l := s.jobs.filter (fun j => decide (j.jstate = JobState.executing))
    with hl
  have hsub : List.Sublist (idsOf l) (idsOf s.jobs) :=
    List.Sublist.map Job.jid (List.filter_sublist s.jobs)
  have hnd : (idsOf l).Nodup := hinv.nodupIds.sublist hsub
  cases hc : l with
  | nil => simp [hc]
  | cons j1 t =>
    have hm1 : j1 ∈ l := by rw [hc]; exact List.mem_cons_self j1 t
    have hj1 := List.mem_filter.mp hm1
    have hj1e : j1.jstate = JobState.executing := by simpa using hj1.2
    have hhold := hinv.execIsHolder j1 hj1.1 hj1e
    have hall : ∀ x ∈ idsOf l, x = j1.jid := by
      intro x hx
      obtain ⟨j2, hj2m, hj2e⟩ := List.mem_map.mp hx
      have hj2f := List.mem_filter.mp hj2m
      have hj2ex : j2.jstate = JobState.executing := by simpa using hj2f.2
      have hhold2 := hinv.execIsHolder j2 hj2f.1 hj2ex
      rw [hhold] at hhold2
      rw [← hj2e]
      exact (Option.some.inj hhold2).symm
    have hlen := all_eq_nodup_length hnd hall
    have : (idsOf l).length = l.length := List.length_map l Job.jid
    rw [this] at hlen
    rw [← hc]
    exact hlen

lemma traceA_cons (bound : Nat) (s : OrchState) (act : Act) (l : List Act) :
    traceA bound s (act :: l) =
      emitA s act ++ traceA bound (stepA bound s act) l := rfl

lemma holder_trace (bound : Nat) (acts : List Act) :
    ∀ (s : OrchState) (a : Nat), s.holder = some a →
      ∀ b, b ≠ a → Ev.submitted b ∈ traceA bound s acts →
        evBefore (Ev.terminal a) (Ev.submitted b) (traceA bound s acts) := by
  induction acts with
  | nil =>
    intro s a _ b _ hmem
    simp [traceA] at hmem
  | cons act l ih =>
    intro s a hh b hba hmem
    rw [traceA_cons] at hmem ⊢
    cases act with
    | arrive i o =>
      have hho : (stepA bound s (Act.arrive i o)).holder = some a := by
        by_cases h0 : i ∈ idsOf s.jobs ∨ i ∈ s.rejected
        · simpa [stepA, h0] using hh
        · have h1 : ¬ s.holder = none := by rw [hh]; simp
          by_cases h2 : s.queue.length < bound
          · simpa [stepA, h0, h1, h2] using hh
          · simpa [stepA, h0, h1, h2] using hh
      rw [show emitA s (Act.arrive i o) = [] from rfl] at hmem ⊢
      rw [List.nil_append] at hmem ⊢
      exact ih _ a hho b hba hmem
    | submit i =>
      by_cases hg : s.holder = some i ∧ jstateOf s i = some JobState.queued
      · have hia : i = a := by
          have h3 := hg.1
          rw [hh] at h3
          exact (Option.some.inj h3).symm
        subst hia
        have hho : (stepA bound s (Act.submit i)).holder = some i := by
          simpa [stepA, hg.1, hg.2] using hh
        have hemit : emitA s (Act.submit i) = [Ev.submitted i] := by
          simp [emitA, hg.1, hg.2]
        rw [hemit] at hmem ⊢
        have hmem2 : Ev.submitted b ∈
            traceA bound (stepA bound s (Act.submit i)) l := by
          rcases List.mem_append.mp hmem with hm1 | hm2
          · exact absurd (by simpa using hm1) hba
          · exact hm2
        show evBefore (Ev.terminal i) (Ev.submitted b)
          (Ev.submitted i :: traceA bound (stepA bound s (Act.submit i)) l)
        right
        exact ih _ i hho b hba hmem2
      · have hs : stepA bound s (Act.submit i) = s := by simp [stepA, hg]
        have hemit : emitA s (Act.submit i) = [] := by simp [emitA, hg]
        rw [hemit, List.nil_append, hs] at hmem ⊢
        exact ih s a hh b hba hmem
    | finishOk i =>
      by_cases hg : s.holder = some i ∧ jstateOf s i = some JobState.executing
      · have hia : i = a := by
          have h3 := hg.1
          rw [hh] at h3
          exact (Option.some.inj h3).symm
        subst hia
        have hemit : emitA s (Act.finishOk i) = [Ev.terminal i] := by
          simp [emitA, hg.1, hg.2]
        rw [hemit] at hmem ⊢
        have hmem2 : Ev.submitted b ∈
            traceA bound (stepA bound s (Act.finishOk i)) l := by
          rcases List.mem_append.mp hmem with hm1 | hm2
          · simp at hm1
          · exact hm2
        exact Or.inl ⟨rfl, hmem2⟩
      · have hs : stepA bound s (Act.finishOk i) = s := by simp [stepA, hg]
        have hemit : emitA s (Act.finishOk i) = [] := by simp [emitA, hg]
        rw [hemit, List.nil_append, hs] at hmem ⊢
        exact ih s a hh b hba hmem
    | finishErr i =>
      by_cases hg : s.holder = some i ∧ (jstateOf s i = some JobState.queued ∨
          jstateOf s i = some JobState.executing)
      · have hia : i = a := by
          have h3 := hg.1
          rw [hh] at h3
          exact (Option.some.inj h3).symm
        subst hia
        have hemit : emitA s (Act.finishErr i) = [Ev.terminal i] := by
          simp [emitA, hg.1, hg.2]
        rw [hemit] at hmem ⊢
        have hmem2 : Ev.submitted b ∈
            traceA bound (stepA bound s (Act.finishErr i)) l := by
          rcases List.mem_append.mp hmem with hm1 | hm2
          · simp at hm1
          · exact hm2
        exact Or.inl ⟨rfl, hmem2⟩
      · have hs : stepA bound s (Act.finishErr i) = s := by simp [stepA, hg]
        have hemit : emitA s (Act.finishErr i) = [] := by simp [emitA, hg]
        rw [hemit, List.nil_append, hs] at hmem ⊢
        exact ih s a hh b hba hmem
    | expire i =>
      by_cases hg : s.holder = some i ∧ (jstateOf s i = some JobState.queued ∨
          jstateOf s i = some JobState.executing)
      · have hia : i = a := by
          have h3 := hg.1
          rw [hh] at h3
          exact (Option.some.inj h3).symm
        subst hia
        have hemit : emitA s (Act.expire i) = [Ev.terminal i] := by
          simp [emitA, hg.1, hg.2]
        rw [hemit] at hmem ⊢
        have hmem2 : Ev.submitted b ∈
            traceA bound (stepA bound s (Act.expire i)) l := by
          rcases List.mem_append.mp hmem with hm1 | hm2
          · simp at hm1
          · exact hm2
        exact Or.inl ⟨rfl, hmem2⟩
      · have hs : stepA bound s (Act.expire i) = s := by simp [stepA, hg]
        have hemit : emitA s (Act.expire i) = [] := by simp [emitA, hg]
        rw [hemit, List.nil_append, hs] at hmem ⊢
        exact ih s a hh b hba hmem

/-! ### Theorems for the orchestration claims -/

/-- C1: at every reachable state of the orchestration core at most one
job is in `Executing` state against the backend, and in the backend
event trace of any run — whatever the interleaving of arrivals of either
origin, submissions and terminal events — a second job's submission
occurs only after a terminal event (completion, failure or timeout) for
the previously submitted job. -/
theorem single_flight_invariant (bound : Nat) (acts : List Act) :
    execCount (runA bound initState acts) ≤ 1 ∧
    submissionsSeparated (traceA bound initState acts) := by
  obtain ⟨hinv, hscan⟩ :=
    runA_inv_scan bound acts initState (initState_inv bound)
  exact ⟨execCount_le_one bound _ hinv,
    scan_sep _ (pendingOf initState) _ hscan⟩

/-- C2: every terminal outcome — success, failure, or timeout — releases
the single-flight gate before `process` returns: the holder is no longer
`i` afterwards.  On timeout the job is marked `TimedOut` (surfaced as
`TimeoutError`) even though the backend never emitted a terminal event,
and with an empty wait queue an immediately subsequent `process` call
(a fresh arrival) acquires the gate at once. -/
theorem gate_release_on_all_outcomes (bound : Nat) (s : OrchState)
    (i i2 : Nat) (o : Origin)
    (hh : s.holder = some i)
    (hexec : jstateOf s i = some JobState.executing)
    (hq : s.queue = [])
    (hf1 : i2 ∉ idsOf s.jobs) (hf2 : i2 ∉ s.rejected) :
    (stepA bound s (Act.finishOk i)).holder = none ∧
    (stepA bound s (Act.finishErr i)).holder = none ∧
    (stepA bound s (Act.expire i)).holder = none ∧
    jstateOf (stepA bound s (Act.expire i)) i = some JobState.timedOut ∧
    (stepA bound (stepA bound s (Act.expire i)) (Act.arrive i2 o)).holder =
      some i2 := by
  have hmem : i ∈ idsOf s.jobs := ids_of_jstateIn hexec
  have hstep : stepA bound s (Act.expire i) =
      releaseGate { s with jobs := setJob s.jobs i JobState.timedOut } := by
    simp [stepA, hh, hexec]
  have hok : stepA bound s (Act.finishOk i) =
      releaseGate { s with jobs := setJob s.jobs i JobState.completed } := by
    simp [stepA, hh, hexec]
  have herr : stepA bound s (Act.finishErr i) =
      releaseGate { s with jobs := setJob s.jobs i JobState.failed } := by
    simp [stepA, hh, hexec]
  refine ⟨?_, ?_, ?_, ?_, ?_⟩
  · rw [hok]
    show s.queue.head? = none
    rw [hq]
    rfl
  · rw [herr]
    show s.queue.head? = none
    rw [hq]
    rfl
  · rw [hstep]
    show s.queue.head? = none
    rw [hq]
    rfl
  · rw [hstep]
    show jstateIn (setJob s.jobs i JobState.timedOut) i =
      some JobState.timedOut
    exact jstateIn_setJob_self JobState.timedOut hmem
  · rw [hstep]
    have hh1 : (releaseGate
        { s with jobs := setJob s.jobs i JobState.timedOut }).holder =
        none := by
      show s.queue.head? = none
      rw [hq]
      rfl
    have hg1 : ¬ (i2 ∈ idsOf (releaseGate
        { s with jobs := setJob s.jobs i JobState.timedOut }).jobs ∨
        i2 ∈ (releaseGate
          { s with jobs := setJob s.jobs i JobState.timedOut }).rejected) := by
      intro hcon
      rcases hcon with hc1 | hc2
      · rw [show (releaseGate
            { s with jobs := setJob s.jobs i JobState.timedOut }).jobs =
            setJob s.jobs i JobState.timedOut from rfl, idsOf_setJob] at hc1
        exact hf1 hc1
      · exact hf2 hc2
    simp [stepA, hg1, hh1]

/-- A concrete state: job 0 (Interactive) holds the gate and is
executing against the backend; nobody waits. -/
def holdingState : OrchState :=
  ⟨some 0, [], [⟨0, Origin.interactive, JobState.executing⟩], []⟩

/-- C2 witness: from the concrete holding state, after a timeout the
gate is free and a new arrival acquires it immediately. -/
theorem gate_release_on_all_outcomes_witness :
    (stepA 1 (stepA 1 holdingState (Act.expire 0))
      (Act.arrive 1 Origin.hotFolder)).holder = some 1 :=
  (gate_release_on_all_outcomes 1 holdingState 0 1 Origin.hotFolder rfl
    (by decide) rfl (by decide) (by decide)).2.2.2.2

/-- C3: in any reachable state in which the gate is held and the wait
queue has reached the configured bound, the queue length is exactly the
bound (it is never exceeded), and one further arriving `process` call of
either origin changes nothing but the rejected list: it is recorded as
failed-immediately with `BackendUnavailable`, is never enqueued, and the
queue is untouched. -/
theorem bounded_wait_queue (bound : Nat) (acts : List Act) (i h : Nat)
    (o : Origin)
    (hh : (runA bound initState acts).holder = some h)
    (hq : bound ≤ (runA bound initState acts).queue.length)
    (hf1 : i ∉ idsOf (runA bound initState acts).jobs)
    (hf2 : i ∉ (runA bound initState acts).rejected) :
    (runA bound initState acts).queue.length = bound ∧
    stepA bound (runA bound initState acts) (Act.arrive i o) =
      { runA bound initState acts with
        rejected := (runA bound initState acts).rejected ++ [i] } ∧
    i ∈ (stepA bound (runA bound initState acts) (Act.arrive i o)).rejected ∧
    (stepA bound (runA bound initState acts) (Act.arrive i o)).queue =
      (runA bound initState acts).queue := by
  have hinv := (runA_inv_scan bound acts initState (initState_inv bound)).1
  have hqb : (runA bound initState acts).queue.length ≤ bound :=
    hinv.queueBound
  have hqe : (runA bound initState acts).queue.length = bound :=
    le_antisymm hqb hq
  have hlt : ¬ (runA bound initState acts).queue.length < bound := by omega
  have h0 : ¬ (i ∈ idsOf (runA bound initState acts).jobs ∨
      i ∈ (runA bound initState acts).rejected) := by
    intro hcon
    rcases hcon with hc | hc
    · exact hf1 hc
    · exact hf2 hc
  have h1 : ¬ (runA bound initState acts).holder = none := by
    rw [hh]
    simp
  have hstep : stepA bound (runA bound initState acts) (Act.arrive i o) =
      { runA bound initState acts with
        rejected := (runA bound initState acts).rejected ++ [i] } := by
    simp [stepA, h0, h1, hlt]
  refine ⟨hqe, hstep, ?_, ?_⟩
  · rw [hstep]
    simp
  · rw [hstep]

/-- C3 witness: with bound 1, job 0 holding the gate and job 1 waiting,
a third call is rejected immediately. -/
theorem bounded_wait_queue_witness :
    2 ∈ (stepA 1 (runA 1 initState
      [Act.arrive 0 Origin.interactive, Act.arrive 1 Origin.hotFolder])
      (Act.arrive 2 Origin.hotFolder)).rejected :=
  (bounded_wait_queue 1
    [Act.arrive 0 Origin.interactive, Act.arrive 1 Origin.hotFolder]
    2 0 Origin.hotFolder (by decide) (by decide) (by decide)
    (by decide)).2.2.1

/-- C4: FIFO service with no priority between origins — when an
Interactive job A holds the gate and a HotFolder call B arrives behind
it, B's backend submission occurs strictly after A's terminal event in
the backend event trace of any continuation. -/
theorem fifo_fairness (bound : Nat) (acts1 acts3 : List Act) (a b : Nat)
    (hh : (runA bound initState acts1).holder = some a)
    (hoa : originOf (runA bound initState acts1) a = some Origin.interactive)
    (hab : b ≠ a)
    (hmem : Ev.submitted b ∈ traceA bound (runA bound initState acts1)
      (Act.arrive b Origin.hotFolder :: acts3)) :
    evBefore (Ev.terminal a) (Ev.submitted b)
      (traceA bound (runA bound initState acts1)
        (Act.arrive b Origin.hotFolder :: acts3)) :=
  holder_trace bound (Act.arrive b Origin.hotFolder :: acts3)
    (runA bound initState acts1) a hh b hab hmem

/-- C4 witness: Interactive job 0 holds the gate; HotFolder job 1
arrives, waits, and its submission lands after job 0's terminal event. -/
theorem fifo_fairness_witness :
    evBefore (Ev.terminal 0) (Ev.submitted 1)
      (traceA 1 (runA 1 initState
        [Act.arrive 0 Origin.interactive, Act.submit 0])
        (Act.arrive 1 Origin.hotFolder :: [Act.finishOk 0, Act.submit 1])) :=
  fifo_fairness 1 [Act.arrive 0 Origin.interactive, Act.submit 0]
    [Act.finishOk 0, Act.submit 1] 0 1 (by decide) (by decide) (by decide)
    (by decide)

end Motu
